import Mathlib

/-!
Verification development for the envhub-cli repository.

The development shallowly embeds the core of the program:
* the `.env` content codec (`src/utils/env-parser.ts`) and diff (`src/utils/diff.ts`),
  modelled on `List Char` with `String` wrappers;
* the secret payload model shared by both providers (a small JSON value type stands
  for the JSON text stored in the backend: `JSON.parse` is abstracted as a bijection
  between decodable strings and `Json` values, and a stored string that `JSON.parse`
  rejects is the `StoredVal.notJson` case);
* the AWS Secrets Manager provider (`src/providers/aws/aws-secrets.provider.ts`),
  including its unchecked `JSON.parse(...) as SecretPayload` cast, modelled by
  JavaScript-style property access `jsGet` that yields `none` (undefined) for a
  missing field and a type error when reading a property of `null`;
* the Azure Key Vault provider (its `parsePayload` validates the envelope shape);
* the local tracking store (`ConfigManager`) and the version-control protocol
  (`VersionControl.checkBeforePush`, `recordPush`, `recordPull`).

Remote state is a finite association list from full secret names to stored values.
Asynchronous effects are modelled by explicit state passing; thrown exceptions by
`Except`.  Timestamps (`new Date().toISOString()`) are passed in as an explicit
`now` argument.  The backend-managed `LastChangedDate`/`updatedOn` timestamp shown
by `list` is outside the payload model and is omitted from the list item.
-/

/-! ## Generic association-list operations

`getAssoc`/`setAssoc` model both a JavaScript `Map` (lookup / `set`, which keeps
the position of an existing key) and the remote secret store keyed by full name.
On the duplicate-free lists that actually arise they agree with `Map` semantics.
-/

def getAssoc [DecidableEq κ] : List (κ × α) → κ → Option α
  | [], _ => none
  | (k, v) :: rest, key => if k = key then some v else getAssoc rest key

def setAssoc [DecidableEq κ] : List (κ × α) → κ → α → List (κ × α)
  | [], key, v => [(key, v)]
  | (k, w) :: rest, key, v =>
    if k = key then (key, v) :: rest else (k, w) :: setAssoc rest key v

/-! ## Content codec (`src/utils/env-parser.ts`)

The parser works on `List Char`; `Char.isWhitespace` stands for the JavaScript
whitespace class used by `String.prototype.trim` and the `\s` regex class.
-/

def trimLeftChars (l : List Char) : List Char := l.dropWhile Char.isWhitespace

def trimRightChars (l : List Char) : List Char :=
  (l.reverse.dropWhile Char.isWhitespace).reverse

/-- `line.trim()`. -/
def trimChars (l : List Char) : List Char := trimRightChars (trimLeftChars l)

/-- `content.split("\n")`. -/
def splitNl : List Char → List (List Char)
  | [] => [[]]
  | c :: rest =>
    if c = '\n' then [] :: splitNl rest
    else
      match splitNl rest with
      | [] => [[c]]
      | l :: ls => (c :: l) :: ls

/-- `trimmed.indexOf("=")` (`none` for `-1`). -/
def idxOfChar : List Char → Char → Option Nat
  | [], _ => none
  | c :: rest, ch => if c = ch then some 0 else (idxOfChar rest ch).map (· + 1)

/-- The quote-stripping step of `parseEnvContent`:
if the value is wrapped in double or in single quotes, `value.slice(1, -1)`. -/
def stripQuotes (v : List Char) : List Char :=
  if (v.head? = some '"' ∧ v.getLast? = some '"') ∨
      (v.head? = some '\'' ∧ v.getLast? = some '\'') then
    (v.drop 1).dropLast
  else v

/-- The body of the `for (const line of lines)` loop of `parseEnvContent`,
acting on the accumulated map. -/
def parseEnvLine (acc : List (List Char × List Char)) (line : List Char) :
    List (List Char × List Char) :=
  if trimChars line = [] then acc
  else if (trimChars line).head? = some '#' then acc
  else
    match idxOfChar (trimChars line) '=' with
    | none => acc
    | some i =>
      if trimChars ((trimChars line).take i) = [] then acc
      else
        setAssoc acc (trimChars ((trimChars line).take i))
          (stripQuotes (trimChars ((trimChars line).drop (i + 1))))

/-- `parseEnvContent` on raw characters. -/
def parseEnvChars (content : List Char) : List (List Char × List Char) :=
  (splitNl content).foldl parseEnvLine []

/-- The quoting test of `serializeEnv`: quote when the value is empty or contains
whitespace, a hash sign, a quote character of either kind, or a backslash. -/
def needsQuoting (v : List Char) : Bool :=
  v.any (fun c => c.isWhitespace || c == '#' || c == '"' || c == '\'' || c == '\\') ||
    v.isEmpty

def formatValue (v : List Char) : List Char :=
  if needsQuoting v then '"' :: v ++ ['"'] else v

/-- One `key=formattedValue` line of `serializeEnv`. -/
def serLine (k v : List Char) : List Char := k ++ '=' :: formatValue v

/-- `lines.join("\n")`. -/
def joinLines : List (List Char) → List Char
  | [] => []
  | [l] => l
  | l :: l2 :: rest => l ++ '\n' :: joinLines (l2 :: rest)

/-- `serializeEnv` on raw characters: joined lines plus a trailing newline. -/
def serializeEnvChars (m : List (List Char × List Char)) : List Char :=
  joinLines (m.map (fun p => serLine p.1 p.2)) ++ ['\n']

/-- `parseEnvContent : string → Map<string, string>`, as an insertion-ordered
duplicate-free association list. -/
def parseEnvContent (content : String) : List (String × String) :=
  (parseEnvChars content.data).map (fun p => (String.mk p.1, String.mk p.2))

/-- `serializeEnv : Map<string, string> → string`. -/
def serializeEnv (entries : List (String × String)) : String :=
  String.mk (serializeEnvChars (entries.map (fun p => (p.1.data, p.2.data))))

/-- Invariant satisfied by every key/value pair the parser produces: the key is
nonempty, already trimmed, not a comment starter, free of `=`, and neither side
contains a newline. -/
def goodEntry (p : List Char × List Char) : Prop :=
  p.1 ≠ [] ∧ trimChars p.1 = p.1 ∧ p.1.head? ≠ some '#' ∧
    '=' ∉ p.1 ∧ '\n' ∉ p.1 ∧ '\n' ∉ p.2

/-- Invariant of the accumulated map: all entries good, keys duplicate-free. -/
def parseOk (m : List (List Char × List Char)) : Prop :=
  (∀ p ∈ m, goodEntry p) ∧ (m.map Prod.fst).Nodup

/-! ## Diff (`src/utils/diff.ts`) -/

inductive ChangeType
  | added
  | removed
  | changed
deriving DecidableEq

structure EnvChange where
  key : String
  type : ChangeType
  oldValue : Option String
  newValue : Option String
deriving DecidableEq

/-- `diffEnvContents(localContent, remoteContent)`: the first loop walks the
remote map emitting `added`/`changed`, the second walks the local map emitting
`removed`. -/
def diffEnvContents (localContent remoteContent : String) : List EnvChange :=
  ((parseEnvContent remoteContent).filterMap fun p =>
    match getAssoc (parseEnvContent localContent) p.1 with
    | none => some ⟨p.1, .added, none, some p.2⟩
    | some lv => if lv = p.2 then none else some ⟨p.1, .changed, some lv, some p.2⟩) ++
  (parseEnvContent localContent).filterMap fun p =>
    if (getAssoc (parseEnvContent remoteContent) p.1).isSome then none
    else some ⟨p.1, .removed, some p.2, none⟩

/-! ## JSON values and stored secret payloads -/

/-- JSON values; numbers are restricted to the integers, which covers every
version number the program manipulates. -/
inductive Json
  | jnull
  | jbool (b : Bool)
  | jnum (n : Int)
  | jstr (s : String)
  | jarr (elems : List Json)
  | jobj (fields : List (String × Json))

/-- Field lookup in a decoded JSON object (`JSON.parse` output has unique keys). -/
def lookupField : List (String × Json) → String → Option Json
  | [], _ => none
  | (k, v) :: rest, key => if k = key then some v else lookupField rest key

/-- A value stored in the backend, as seen through `JSON.parse`:
either a string `JSON.parse` rejects, or the JSON value it decodes to. -/
inductive StoredVal
  | notJson
  | json (j : Json)

/-- The remote secret store: full secret name (with namespace prefix) ↦ stored value. -/
abbrev Store := List (String × StoredVal)

/-- `JSON.stringify` of the `SecretPayload` object literal both providers build on
push: `{content, metadata: {version, message, updatedAt, managedBy: "envhub-cli"}}`;
an `undefined` message field is omitted by `JSON.stringify`. -/
def encodePayload (content : String) (version : Int) (message : Option String)
    (updatedAt : String) : Json :=
  .jobj [("content", .jstr content),
         ("metadata", .jobj ([("version", .jnum version)] ++
           (match message with
            | some m => [("message", .jstr m)]
            | none => []) ++
           [("updatedAt", .jstr updatedAt), ("managedBy", .jstr "envhub-cli")]))]

/-! ## String helpers for namespace prefixes -/

/-- `fullName.startsWith(this.prefix)`. -/
def strStartsWith (s pre : String) : Bool := pre.data.isPrefixOf s.data

/-- `fullName.substring(this.prefix.length)` guarded by `startsWith`, i.e.
the `stripPrefix` helper both providers define. -/
def stripPfx (pre s : String) : String :=
  if strStartsWith s pre then String.mk (s.data.drop pre.data.length) else s

/-! ## AWS Secrets Manager provider (`aws-secrets.provider.ts`) -/

inductive AwsErr
  /-- `ResourceNotFoundException` from the backend. -/
  | notFound
  /-- `JSON.parse` threw (the stored value is not JSON-decodable); the
  `result.SecretString` falsiness check falls under this case too. -/
  | syntaxError
  /-- JavaScript `TypeError`: property access on `null`/`undefined`, or
  `parseEnvContent` applied to a non-string. -/
  | typeError
  /-- `currentPayload.metadata.version + 1` where `version` is not a number:
  JavaScript would coerce (NaN / string concatenation).  This cannot arise from
  envhub-written payloads and no theorem below exercises this branch. -/
  | coercedVersion
deriving DecidableEq

/-- JavaScript property access `j[key]` on a decoded JSON value: `undefined`
(`none`) when absent or when the receiver is a primitive, a `TypeError` when the
receiver is `null`. -/
def jsGet : Json → String → Except AwsErr (Option Json)
  | .jnull, _ => .error .typeError
  | .jobj fields, key => .ok (lookupField fields key)
  | _, _ => .ok none

namespace AWSSecretsProvider

/-- `getPayload`: `GetSecretValueCommand` plus `JSON.parse(result.SecretString) as
SecretPayload` — note: no validation of the decoded shape. -/
def getPayload (store : Store) (pfx secretName : String) : Except AwsErr Json :=
  match getAssoc store (pfx ++ secretName) with
  | none => .error .notFound
  | some .notJson => .error .syntaxError
  | some (.json j) => .ok j

/-- `secretExists` via `DescribeSecretCommand`. -/
def secretExists (store : Store) (pfx secretName : String) : Bool :=
  (getAssoc store (pfx ++ secretName)).isSome

structure AwsPullResult where
  content : Option Json
  version : Option Json
  name : String

/-- `pull`: `{content: payload.content, version: payload.metadata.version, name}` —
the unchecked cast means `content` and `version` are whatever the payload holds. -/
def pull (store : Store) (pfx secretName : String) : Except AwsErr AwsPullResult := do
  let j ← getPayload store pfx secretName
  let c ← jsGet j "content"
  let m ← jsGet j "metadata"
  match m with
  | none => .error .typeError
  | some mj => do
    let v ← jsGet mj "version"
    .ok ⟨c, v, secretName⟩

/-- `cat`: `payload.content`. -/
def cat (store : Store) (pfx secretName : String) : Except AwsErr (Option Json) := do
  let j ← getPayload store pfx secretName
  jsGet j "content"

/-- The `try { ... return payload.metadata.version } ...` body of `getVersion`. -/
def getVersionRaw (store : Store) (pfx secretName : String) :
    Except AwsErr (Option Json) := do
  let j ← getPayload store pfx secretName
  let m ← jsGet j "metadata"
  match m with
  | none => .error .typeError
  | some mj => jsGet mj "version"

/-- `getVersion`: the raw read with `ResourceNotFoundException` mapped to `0`;
every other error is rethrown. -/
def getVersion (store : Store) (pfx secretName : String) : Except AwsErr (Option Json) :=
  match getVersionRaw store pfx secretName with
  | .error .notFound => .ok (some (.jnum 0))
  | r => r

structure PushResult where
  version : Int
  name : String
deriving DecidableEq

/-- `push`: existence probe, then either `UpdateSecretCommand` with
`currentPayload.metadata.version + 1` or `CreateSecretCommand` with version 1.
The state-passing result returns the updated store alongside `PushResult`. -/
def push (store : Store) (pfx secretName content : String) (message : Option String)
    (now : String) : Except AwsErr (PushResult × Store) :=
  if secretExists store pfx secretName then
    match getPayload store pfx secretName with
    | .error e => .error e
    | .ok j =>
      match jsGet j "metadata" with
      | .error e => .error e
      | .ok none => .error .typeError
      | .ok (some mj) =>
        match jsGet mj "version" with
        | .error e => .error e
        | .ok (some (.jnum v)) =>
          .ok (⟨v + 1, secretName⟩,
            setAssoc store (pfx ++ secretName)
              (.json (encodePayload content (v + 1) message now)))
        | .ok _ => .error .coercedVersion
  else
    .ok (⟨1, secretName⟩,
      setAssoc store (pfx ++ secretName) (.json (encodePayload content 1 message now)))

structure SecretListItem where
  name : String
  secretsCount : Nat
  lastMessage : Option Json

/-- `value ?? null`: `null`/`undefined` become `null` (`none`). -/
def jsNullish : Option Json → Option Json
  | some .jnull => none
  | x => x

/-- The `try { ... } catch { /* show basic info */ }` body computing one list item.
`secretsCount` is assigned before `lastMessage`, so a payload whose `content` is a
parseable string but whose `metadata` access throws keeps the computed count. -/
def listItem (store : Store) (pfx fullNm : String) : SecretListItem :=
  match getPayload store pfx (stripPfx pfx fullNm) with
  | .error _ => ⟨stripPfx pfx fullNm, 0, none⟩
  | .ok j =>
    match jsGet j "content" with
    | .error _ => ⟨stripPfx pfx fullNm, 0, none⟩
    | .ok copt =>
      match copt with
      | some (.jstr c) =>
        match jsGet j "metadata" with
        | .error _ => ⟨stripPfx pfx fullNm, (parseEnvContent c).length, none⟩
        | .ok none => ⟨stripPfx pfx fullNm, (parseEnvContent c).length, none⟩
        | .ok (some mj) =>
          match jsGet mj "message" with
          | .error _ => ⟨stripPfx pfx fullNm, (parseEnvContent c).length, none⟩
          | .ok msg => ⟨stripPfx pfx fullNm, (parseEnvContent c).length, jsNullish msg⟩
      | _ => ⟨stripPfx pfx fullNm, 0, none⟩

/-- `list`: enumerate the secrets whose full name starts with the prefix and map
each through the best-effort item reader.  (Pagination is an SDK detail.) -/
def list (store : Store) (pfx : String) : List SecretListItem :=
  (store.filter (fun e => strStartsWith e.1 pfx)).map (fun e => listItem store pfx e.1)

end AWSSecretsProvider

/-! ## Azure Key Vault provider (`azure-key-vault.provider.ts`) -/

inductive AzErr
  /-- Secret name longer than 127 characters. -/
  | nameTooLong
  /-- Secret name fails `^[0-9a-zA-Z-]+$`. -/
  | nameInvalid
  /-- `SecretNotFound`/404 from the vault. -/
  | notFound
  /-- "not in envhub format": `JSON.parse` threw. -/
  | notInEnvhubFormat
  /-- "missing envhub metadata": not a truthy object with `content` and `metadata`. -/
  | missingMetadata
  /-- "invalid envhub payload format": `content` not a string or
  `metadata?.version` not a number. -/
  | invalidFormat
  /-- grant/revoke: "not implemented for Azure Key Vault". -/
  | unsupported (msg : String)
deriving DecidableEq

namespace AzureKeyVaultProvider

/-- `fullName`: prefix the name, then validate length and character set,
in that order. -/
def fullName (pfx secretName : String) : Except AzErr String :=
  let full := pfx ++ secretName
  if full.length > 127 then .error .nameTooLong
  else if !(!full.isEmpty && full.data.all (fun c => c.isAlphanum || c == '-')) then
    .error .nameInvalid
  else .ok full

/-- The validated payload `parsePayload` returns: `content` and `metadata.version`
checked, `metadata.message` carried through as-is (unvalidated). -/
structure AzPayload where
  content : String
  version : Int
  message : Option Json

/-- `parsePayload`: `JSON.parse`, then reject unless the result is a truthy object
with `content` and `metadata` fields, then reject unless `content` is a string and
`metadata?.version` is a number. -/
def parsePayload : StoredVal → Except AzErr AzPayload
  | .notJson => .error .notInEnvhubFormat
  | .json j =>
    match j with
    | .jobj fields =>
      match lookupField fields "content", lookupField fields "metadata" with
      | some c, some m =>
        match c, m with
        | .jstr s, .jobj mfields =>
          match lookupField mfields "version" with
          | some (.jnum v) => .ok ⟨s, v, lookupField mfields "message"⟩
          | _ => .error .invalidFormat
        | _, _ => .error .invalidFormat
      | _, _ => .error .missingMetadata
    | _ => .error .missingMetadata

/-- `client.getSecret` (name validation, then vault lookup). -/
def getSecretRaw (store : Store) (pfx secretName : String) : Except AzErr StoredVal := do
  let full ← fullName pfx secretName
  match getAssoc store full with
  | none => .error .notFound
  | some sv => .ok sv

/-- `getPayload`: fetch then `parsePayload`. -/
def getPayload (store : Store) (pfx secretName : String) : Except AzErr AzPayload := do
  let sv ← getSecretRaw store pfx secretName
  parsePayload sv

/-- `secretExists`: `getSecret` with `isNotFoundError` mapped to `false`. -/
def secretExists (store : Store) (pfx secretName : String) : Except AzErr Bool :=
  match getSecretRaw store pfx secretName with
  | .ok _ => .ok true
  | .error .notFound => .ok false
  | .error e => .error e

structure PullResult where
  content : String
  version : Int
  name : String
deriving DecidableEq

def pull (store : Store) (pfx secretName : String) : Except AzErr PullResult := do
  let p ← getPayload store pfx secretName
  .ok ⟨p.content, p.version, secretName⟩

def cat (store : Store) (pfx secretName : String) : Except AzErr String := do
  let p ← getPayload store pfx secretName
  .ok p.content

/-- `getVersion`: `payload.metadata.version`, with `isNotFoundError` mapped to `0`;
every other error is rethrown. -/
def getVersion (store : Store) (pfx secretName : String) : Except AzErr Int :=
  match getPayload store pfx secretName with
  | .ok p => .ok p.version
  | .error .notFound => .ok 0
  | .error e => .error e

/-- `push`: existence probe, read current version if it exists, then `setSecret`
with the incremented envelope.  (Vault tags are display metadata and omitted.) -/
def push (store : Store) (pfx secretName content : String) (message : Option String)
    (now : String) : Except AzErr (AWSSecretsProvider.PushResult × Store) := do
  let ex ← secretExists store pfx secretName
  let newVersion ←
    if ex then do
      let p ← getPayload store pfx secretName
      pure (p.version + 1)
    else pure (1 : Int)
  let full ← fullName pfx secretName
  .ok (⟨newVersion, secretName⟩,
    setAssoc store full (.json (encodePayload content newVersion message now)))

structure AzListItem where
  name : String
  secretsCount : Nat
  lastMessage : Option Json

/-- `mapListItem`: best-effort payload read; on any failure the item is still
produced with zero count and no message. -/
def mapListItem (store : Store) (pfx fullNm : String) : AzListItem :=
  match getPayload store pfx (stripPfx pfx fullNm) with
  | .error _ => ⟨stripPfx pfx fullNm, 0, none⟩
  | .ok p => ⟨stripPfx pfx fullNm, (parseEnvContent p.content).length,
      AWSSecretsProvider.jsNullish p.message⟩

/-- Insertion into a sorted list (stable model of `Array.prototype.sort`). -/
def insertBy (le : α → α → Bool) (x : α) : List α → List α
  | [] => [x]
  | y :: ys => if le x y then x :: y :: ys else y :: insertBy le x ys

def sortBy (le : α → α → Bool) : List α → List α
  | [] => []
  | x :: xs => insertBy le x (sortBy le xs)

/-- Code-point order on names, standing for `a.name.localeCompare(b.name)`. -/
def charListLe : List Char → List Char → Bool
  | [], _ => true
  | _ :: _, [] => false
  | a :: as, b :: bs => if a = b then charListLe as bs else decide (a < b)

/-- `list`: enumerate prefixed secrets, map each through `mapListItem`, then sort
by name. -/
def list (store : Store) (pfx : String) : List AzListItem :=
  sortBy (fun a b => charListLe a.name.data b.name.data)
    ((store.filter (fun e => strStartsWith e.1 pfx)).map
      (fun e => mapListItem store pfx e.1))

/-- `grant`: always throws "Grant is not implemented for Azure Key Vault yet." -/
def grant (_secretName _userIdentifier : String) : Except AzErr Unit :=
  .error (.unsupported
    "Grant is not implemented for Azure Key Vault yet. Use Azure RBAC or access policies in Azure.")

/-- `revoke`: always throws "Revoke is not implemented for Azure Key Vault yet." -/
def revoke (_secretName _userIdentifier : String) : Except AzErr Unit :=
  .error (.unsupported
    "Revoke is not implemented for Azure Key Vault yet. Use Azure RBAC or access policies in Azure.")

end AzureKeyVaultProvider

/-! ## Local tracking store (`ConfigManager`) and version control -/

structure AWSConfig where
  profile : String
  region : String

structure AzureConfig where
  vaultUrl : String

structure GCPConfig where
  projectId : String

structure SecretTracking where
  version : Int
  file : String
  lastPulled : Option String
deriving DecidableEq

/-- `.envhubrc.json` contents; `secrets` is the keyed record map.  The `prefix`
field of the schema is called `pfx` here (`prefix` is reserved in Lean). -/
structure EnvhubConfig where
  provider : String
  pfx : String
  aws : Option AWSConfig
  azure : Option AzureConfig
  gcp : Option GCPConfig
  secrets : String → Option SecretTracking

namespace ConfigManager

/-- `updateSecret`: create the record if absent (with defaults for missing fields),
otherwise update exactly the supplied fields in place.  The final `save` is file
I/O; the model returns the updated configuration. -/
def updateSecret (cfg : EnvhubConfig) (secretName : String) (version? : Option Int)
    (file? : Option String) (lastPulled? : Option String) : EnvhubConfig :=
  match cfg.secrets secretName with
  | none =>
    { cfg with secrets := fun m =>
        if m = secretName then some ⟨version?.getD 0, file?.getD "", lastPulled?⟩
        else cfg.secrets m }
  | some old =>
    { cfg with secrets := fun m =>
        if m = secretName then
          (some ⟨version?.getD old.version, file?.getD old.file,
                 (match lastPulled? with
                  | some t => some t
                  | none => old.lastPulled)⟩)
        else cfg.secrets m }

/-- `getTrackedVersion`: `config.secrets[secretName]?.version ?? 0`. -/
def getTrackedVersion (cfg : EnvhubConfig) (secretName : String) : Int :=
  ((cfg.secrets secretName).map (fun t => t.version)).getD 0

end ConfigManager

structure VersionCheckResult where
  canPush : Bool
  localVersion : Int
  remoteVersion : Int
  reason : Option String
deriving DecidableEq

namespace VersionControl

/-- The conflict message, naming the remote and local version numbers. -/
def conflictReason (remoteVersion localVersion : Int) : String :=
  "Remote version (" ++ toString remoteVersion ++
    ") is newer than your local version (" ++ toString localVersion ++
    "). Run \x27envhub pull\x27 first to get the latest changes, or use --force to overwrite."

/-- `checkBeforePush`: local version from the tracking store, remote version from
`provider.getVersion` (passed in as the outcome of that call — the `try`/`catch`
maps any rejection to `canPush: true, remoteVersion: 0`). -/
def checkBeforePush (cfg : EnvhubConfig) (secretName : String)
    (remote : Except String Int) : VersionCheckResult :=
  let localVersion := ConfigManager.getTrackedVersion cfg secretName
  match remote with
  | .error _ => ⟨true, localVersion, 0, none⟩
  | .ok remoteVersion =>
    if remoteVersion = 0 then ⟨true, localVersion, 0, none⟩
    else if localVersion ≥ remoteVersion then ⟨true, localVersion, remoteVersion, none⟩
    else ⟨false, localVersion, remoteVersion,
      some (conflictReason remoteVersion localVersion)⟩

/-- `recordPush`: upsert `version` and `file`. -/
def recordPush (cfg : EnvhubConfig) (secretName : String) (newVersion : Int)
    (file : String) : EnvhubConfig :=
  ConfigManager.updateSecret cfg secretName (some newVersion) (some file) none

/-- `recordPull`: upsert `version`, `file` and `lastPulled`. -/
def recordPull (cfg : EnvhubConfig) (secretName : String) (version : Int)
    (file : String) (now : String) : EnvhubConfig :=
  ConfigManager.updateSecret cfg secretName (some version) (some file) (some now)

end VersionControl

/-! ## Concrete fixtures used by witnesses and counterexamples -/

/-- A configuration tracking `my-app` at version 5. -/
def cfgTracked5 : EnvhubConfig :=
  ⟨"aws", "envhub-", some ⟨"default", "eu-central-1"⟩, none, none,
   fun m => if m = "my-app" then some ⟨5, ".env", none⟩ else none⟩

/-- A configuration tracking `x` at version 1 with a recorded `lastPulled`. -/
def cfgPulled : EnvhubConfig :=
  ⟨"aws", "envhub-", none, none, none,
   fun m => if m = "x" then some ⟨1, "old.env", some "2025-01-01T00:00:00Z"⟩ else none⟩

/-- A store holding one secret whose payload is valid JSON but lacks the
`content` string (created by another tool). -/
def storeNoContent : Store :=
  [("envhub-app", .json (.jobj [("metadata", .jobj [("version", .jnum 1)])]))]

/-- A store holding one secret whose payload is valid JSON with a parseable
`content` string but no `metadata` object. -/
def storeContentOnly : Store :=
  [("envhub-app", .json (.jobj [("content", .jstr "A=1")]))]

/-! # Theorems -/

/-! ## Association-list lemmas -/

theorem getAssoc_setAssoc_self [DecidableEq κ] (m : List (κ × α)) (k : κ) (v : α) :
    getAssoc (setAssoc m k v) k = some v := by
  induction m with
  | nil => simp [setAssoc, getAssoc]
  | cons p rest ih =>
    obtain ⟨k', w⟩ := p
    by_cases h : k' = k
    · simp [setAssoc, h, getAssoc]
    · simp [setAssoc, h, getAssoc, ih]

theorem getAssoc_setAssoc_ne [DecidableEq κ] (m : List (κ × α)) (k k' : κ) (v : α)
    (h : k' ≠ k) : getAssoc (setAssoc m k v) k' = getAssoc m k' := by
  have h' : k ≠ k' := Ne.symm h
  induction m with
  | nil => simp [setAssoc, getAssoc, h']
  | cons p rest ih =>
    obtain ⟨k₀, w⟩ := p
    by_cases h0 : k₀ = k
    · subst h0
      simp [setAssoc, getAssoc, h']
    · simp [setAssoc, h0, getAssoc, ih]

theorem getAssoc_append [DecidableEq κ] (a b : List (κ × α)) (k : κ) :
    getAssoc (a ++ b) k =
      match getAssoc a k with
      | some v => some v
      | none => getAssoc b k := by
  induction a with
  | nil => simp [getAssoc]
  | cons p rest ih =>
    obtain ⟨k', w⟩ := p
    by_cases h : k' = k
    · simp [getAssoc, h]
    · simp [getAssoc, h, ih]

/-! ## C1, C3: the checkBeforePush decision table -/

/-- C1: `checkBeforePush` implements the four-case decision table exactly, with
`localVersion` taken from the tracking store (0 if the secret name is untracked)
and `remoteVersion` from `Provider.getVersion`: a failed remote lookup yields
`canPush = true` with `remoteVersion = 0`; `remoteVersion = 0` yields
`canPush = true`; `localVersion ≥ remoteVersion` (including strictly ahead) yields
`canPush = true`; `localVersion < remoteVersion` yields `canPush = false` with a
reason naming both version numbers. -/
theorem checkBeforePush_decision_table (cfg : EnvhubConfig) (n : String) :
    (cfg.secrets n = none → ConfigManager.getTrackedVersion cfg n = 0) ∧
    (∀ e : String, VersionControl.checkBeforePush cfg n (.error e) =
      ⟨true, ConfigManager.getTrackedVersion cfg n, 0, none⟩) ∧
    (VersionControl.checkBeforePush cfg n (.ok 0) =
      ⟨true, ConfigManager.getTrackedVersion cfg n, 0, none⟩) ∧
    (∀ R : Int, R ≠ 0 → ConfigManager.getTrackedVersion cfg n ≥ R →
      VersionControl.checkBeforePush cfg n (.ok R) =
        ⟨true, ConfigManager.getTrackedVersion cfg n, R, none⟩) ∧
    (∀ R : Int, R ≠ 0 → ConfigManager.getTrackedVersion cfg n < R →
      VersionControl.checkBeforePush cfg n (.ok R) =
        ⟨false, ConfigManager.getTrackedVersion cfg n, R,
         some (VersionControl.conflictReason R (ConfigManager.getTrackedVersion cfg n))⟩) := by
  refine ⟨?_, ?_, ?_, ?_, ?_⟩
  · intro h
    simp [ConfigManager.getTrackedVersion, h]
  · intro e
    simp [VersionControl.checkBeforePush]
  · simp [VersionControl.checkBeforePush]
  · intro R hR hge
    simp [VersionControl.checkBeforePush, hR, hge]
  · intro R hR hlt
    simp [VersionControl.checkBeforePush, hR, not_le.mpr hlt]

/-- Witness for C1 at the test vectors given in the spec: local 5 / remote 3 pushes,
local 5 / remote 7 conflicts with a reason naming 7 and 5, and an untracked name
has local version 0. -/
theorem checkBeforePush_decision_table_witness :
    ConfigManager.getTrackedVersion cfgTracked5 "other" = 0 ∧
    VersionControl.checkBeforePush cfgTracked5 "my-app" (.ok 3) = ⟨true, 5, 3, none⟩ ∧
    VersionControl.checkBeforePush cfgTracked5 "my-app" (.ok 7) =
      ⟨false, 5, 7, some (VersionControl.conflictReason 7 5)⟩ := by
  have h5 : ConfigManager.getTrackedVersion cfgTracked5 "my-app" = 5 := by decide
  have h1 := (checkBeforePush_decision_table cfgTracked5 "other").1 (by decide)
  have h2 := (checkBeforePush_decision_table cfgTracked5 "my-app").2.2.2.1 3
    (by decide) (by rw [h5]; decide)
  have h3 := (checkBeforePush_decision_table cfgTracked5 "my-app").2.2.2.2 7
    (by decide) (by rw [h5]; decide)
  rw [h5] at h2 h3
  exact ⟨h1, h2, h3⟩

/-- C3 counterexample: `checkBeforePush` catches every rejection of
`Provider.getVersion` — here a network failure, which is not a not-found
condition — and still returns the `canPush = true, remoteVersion = 0` verdict
instead of propagating the failure. -/
theorem checkBeforePush_swallows_network_failure :
    VersionControl.checkBeforePush cfgTracked5 "my-app"
      (.error "connect ETIMEDOUT: network failure") = ⟨true, 5, 0, none⟩ := by decide

/-- C3 (amended): the bare `catch` in `checkBeforePush` maps every failure of
`Provider.getVersion` — not only a not-found condition — to the
`canPush = true, remoteVersion = 0` verdict; no failure is propagated. -/
theorem checkBeforePush_maps_any_failure_to_zero (cfg : EnvhubConfig) (n e : String) :
    VersionControl.checkBeforePush cfg n (.error e) =
      ⟨true, ConfigManager.getTrackedVersion cfg n, 0, none⟩ := rfl

/-! ## C9: recordPush frame conditions -/

/-- C9: `recordPush(n, v, f)` sets the tracking record for `n` to version `v` and
file `f`, preserves the `lastPulled` field of an existing record for `n`, and
leaves every other secret's record and all non-secrets configuration fields
unchanged. -/
theorem recordPush_frame (cfg : EnvhubConfig) (n : String) (v : Int) (f : String) :
    (cfg.secrets n = none →
      (VersionControl.recordPush cfg n v f).secrets n = some ⟨v, f, none⟩) ∧
    (∀ old, cfg.secrets n = some old →
      (VersionControl.recordPush cfg n v f).secrets n = some ⟨v, f, old.lastPulled⟩) ∧
    (∀ m, m ≠ n → (VersionControl.recordPush cfg n v f).secrets m = cfg.secrets m) ∧
    (VersionControl.recordPush cfg n v f).provider = cfg.provider ∧
    (VersionControl.recordPush cfg n v f).pfx = cfg.pfx ∧
    (VersionControl.recordPush cfg n v f).aws = cfg.aws ∧
    (VersionControl.recordPush cfg n v f).azure = cfg.azure ∧
    (VersionControl.recordPush cfg n v f).gcp = cfg.gcp := by
  unfold VersionControl.recordPush ConfigManager.updateSecret
  refine ⟨?_, ?_, ?_, ?_⟩
  · intro h
    simp [h]
  · intro old h
    simp [h]
  · intro m hm
    cases h : cfg.secrets n <;> simp [h, hm]
  · cases h : cfg.secrets n <;> simp [h]

/-- Witness for C9: the vector from the spec, `recordPush("x", 4, ".env")` on a
config whose record for `x` carries a `lastPulled` timestamp. -/
theorem recordPush_frame_witness :
    (VersionControl.recordPush cfgPulled "x" 4 ".env").secrets "x" =
      some ⟨4, ".env", some "2025-01-01T00:00:00Z"⟩ ∧
    (VersionControl.recordPush cfgPulled "x" 4 ".env").secrets "y" =
      cfgPulled.secrets "y" ∧
    (VersionControl.recordPush cfgPulled "x" 4 ".env").pfx = cfgPulled.pfx := by
  have h := recordPush_frame cfgPulled "x" 4 ".env"
  exact ⟨h.2.1 ⟨1, "old.env", some "2025-01-01T00:00:00Z"⟩ (by decide),
         h.2.2.1 "y" (by decide), h.2.2.2.2.1⟩

/-! ## C10: grant/revoke on Azure Key Vault -/

/-- C10: on the Azure Key Vault provider, which has no access-control mechanism
of its own, `grant` and `revoke` always fail with an explicit
not-supported-on-this-backend condition and never complete as a silent no-op. -/
theorem azure_grant_revoke_unsupported (n u : String) :
    AzureKeyVaultProvider.grant n u =
      .error (.unsupported
        "Grant is not implemented for Azure Key Vault yet. Use Azure RBAC or access policies in Azure.") ∧
    AzureKeyVaultProvider.revoke n u =
      .error (.unsupported
        "Revoke is not implemented for Azure Key Vault yet. Use Azure RBAC or access policies in Azure.") ∧
    (∀ x, AzureKeyVaultProvider.grant n u ≠ .ok x) ∧
    (∀ x, AzureKeyVaultProvider.revoke n u ≠ .ok x) := by
  refine ⟨rfl, rfl, ?_, ?_⟩ <;> intro x h <;> simp [AzureKeyVaultProvider.grant,
    AzureKeyVaultProvider.revoke] at h
/-! ## Payload encode/decode lemmas -/

theorem parsePayload_encode (c : String) (v : Int) (msg : Option String) (t : String) :
    AzureKeyVaultProvider.parsePayload (.json (encodePayload c v msg t)) =
      .ok ⟨c, v, msg.map Json.jstr⟩ := by
  cases msg <;> simp [AzureKeyVaultProvider.parsePayload, encodePayload, lookupField]

theorem aws_getVersionRaw_encode (store : Store) (pfx n c : String) (v : Int)
    (msg : Option String) (t : String)
    (h : getAssoc store (pfx ++ n) = some (.json (encodePayload c v msg t))) :
    AWSSecretsProvider.getVersionRaw store pfx n = .ok (some (.jnum v)) := by
  cases msg <;>
    simp [AWSSecretsProvider.getVersionRaw, AWSSecretsProvider.getPayload, h,
      encodePayload, jsGet, lookupField, Bind.bind, Except.bind]

theorem az_fullName_ok (pfx n full : String)
    (h : AzureKeyVaultProvider.fullName pfx n = .ok full) : full = pfx ++ n := by
  simp only [AzureKeyVaultProvider.fullName] at h
  split_ifs at h
  exact (Except.ok.inj h).symm
/-! ## C8: getVersion and the not-found sentinel -/

/-- C8: for both providers, `getVersion` returns the version stored in the envelope as
an integer, returns the sentinel `0` without throwing when the secret does not
exist, and does not map errors other than not-found to `0` (a malformed payload
propagates as an error). -/
theorem getVersion_zero_sentinel (store : Store) (pfx n c : String) (v : Int)
    (msg : Option String) (t : String) :
    (getAssoc store (pfx ++ n) = none →
      AWSSecretsProvider.getVersion store pfx n = .ok (some (.jnum 0))) ∧
    (getAssoc store (pfx ++ n) = some (.json (encodePayload c v msg t)) →
      AWSSecretsProvider.getVersion store pfx n = .ok (some (.jnum v))) ∧
    (getAssoc store (pfx ++ n) = some .notJson →
      AWSSecretsProvider.getVersion store pfx n = .error .syntaxError) ∧
    (∀ full, AzureKeyVaultProvider.fullName pfx n = .ok full →
      (getAssoc store full = none →
        AzureKeyVaultProvider.getVersion store pfx n = .ok 0) ∧
      (getAssoc store full = some (.json (encodePayload c v msg t)) →
        AzureKeyVaultProvider.getVersion store pfx n = .ok v) ∧
      (getAssoc store full = some .notJson →
        AzureKeyVaultProvider.getVersion store pfx n = .error .notInEnvhubFormat)) := by
  refine ⟨?_, ?_, ?_, ?_⟩
  · intro h
    simp [AWSSecretsProvider.getVersion, AWSSecretsProvider.getVersionRaw,
      AWSSecretsProvider.getPayload, h, Bind.bind, Except.bind]
  · intro h
    rw [AWSSecretsProvider.getVersion, aws_getVersionRaw_encode store pfx n c v msg t h]
  · intro h
    simp [AWSSecretsProvider.getVersion, AWSSecretsProvider.getVersionRaw,
      AWSSecretsProvider.getPayload, h, Bind.bind, Except.bind]
  · intro full hfull
    refine ⟨?_, ?_, ?_⟩
    · intro h
      simp [AzureKeyVaultProvider.getVersion, AzureKeyVaultProvider.getPayload,
        AzureKeyVaultProvider.getSecretRaw, hfull, h, Bind.bind, Except.bind]
    · intro h
      simp [AzureKeyVaultProvider.getVersion, AzureKeyVaultProvider.getPayload,
        AzureKeyVaultProvider.getSecretRaw, hfull, h, Bind.bind, Except.bind,
        parsePayload_encode]
    · intro h
      simp [AzureKeyVaultProvider.getVersion, AzureKeyVaultProvider.getPayload,
        AzureKeyVaultProvider.getSecretRaw, hfull, h, Bind.bind, Except.bind,
        AzureKeyVaultProvider.parsePayload]

/-- Witness for C8: the sentinel and the propagation behavior on concrete stores. -/
theorem getVersion_zero_sentinel_witness :
    AWSSecretsProvider.getVersion [] "envhub-" "a" = .ok (some (.jnum 0)) ∧
    AWSSecretsProvider.getVersion
      [("envhub-a", .json (encodePayload "K=v" 3 none "t"))] "envhub-" "a" =
      .ok (some (.jnum 3)) ∧
    AWSSecretsProvider.getVersion [("envhub-a", .notJson)] "envhub-" "a" =
      .error .syntaxError ∧
    AzureKeyVaultProvider.getVersion [] "envhub-" "a" = .ok 0 ∧
    AzureKeyVaultProvider.getVersion
      [("envhub-a", .json (encodePayload "K=v" 3 none "t"))] "envhub-" "a" = .ok 3 ∧
    AzureKeyVaultProvider.getVersion [("envhub-a", .notJson)] "envhub-" "a" =
      .error .notInEnvhubFormat :=
  ⟨(getVersion_zero_sentinel [] "envhub-" "a" "K=v" 3 none "t").1 rfl,
   (getVersion_zero_sentinel [("envhub-a", .json (encodePayload "K=v" 3 none "t"))]
      "envhub-" "a" "K=v" 3 none "t").2.1 rfl,
   (getVersion_zero_sentinel [("envhub-a", .notJson)] "envhub-" "a" "K=v" 3 none
      "t").2.2.1 rfl,
   ((getVersion_zero_sentinel [] "envhub-" "a" "K=v" 3 none "t").2.2.2 "envhub-a"
      rfl).1 rfl,
   ((getVersion_zero_sentinel [("envhub-a", .json (encodePayload "K=v" 3 none "t"))]
      "envhub-" "a" "K=v" 3 none "t").2.2.2 "envhub-a" rfl).2.1 rfl,
   ((getVersion_zero_sentinel [("envhub-a", .notJson)] "envhub-" "a" "K=v" 3 none
      "t").2.2.2 "envhub-a" rfl).2.2 rfl⟩
theorem az_fullName_error_cases (pfx n : String) (e : AzErr)
    (h : AzureKeyVaultProvider.fullName pfx n = .error e) :
    e = .nameTooLong ∨ e = .nameInvalid := by
  simp only [AzureKeyVaultProvider.fullName] at h
  split_ifs at h <;> simp_all

theorem az_parse_ne_notFound (sv : StoredVal) :
    AzureKeyVaultProvider.parsePayload sv ≠ .error .notFound := by
  cases sv with
  | notJson => simp [AzureKeyVaultProvider.parsePayload]
  | json j =>
    unfold AzureKeyVaultProvider.parsePayload
    repeat' split
    all_goals simp
/-- C4: for both providers, a successful push writes an envelope whose
`metadata.version` is the current remote version plus one (a nonexistent secret
counting as version 0), returns that version, and a subsequent `getVersion`
observes it. -/
theorem push_version_increment (store : Store) (pfx n c : String) (msg : Option String)
    (now : String) (v : Int) :
    (AWSSecretsProvider.getVersion store pfx n = .ok (some (.jnum v)) →
      AWSSecretsProvider.push store pfx n c msg now =
        .ok (⟨v + 1, n⟩,
          setAssoc store (pfx ++ n) (.json (encodePayload c (v + 1) msg now))) ∧
      AWSSecretsProvider.getVersion
        (setAssoc store (pfx ++ n) (.json (encodePayload c (v + 1) msg now))) pfx n =
        .ok (some (.jnum (v + 1)))) ∧
    (AzureKeyVaultProvider.getVersion store pfx n = .ok v →
      AzureKeyVaultProvider.push store pfx n c msg now =
        .ok (⟨v + 1, n⟩,
          setAssoc store (pfx ++ n) (.json (encodePayload c (v + 1) msg now))) ∧
      AzureKeyVaultProvider.getVersion
        (setAssoc store (pfx ++ n) (.json (encodePayload c (v + 1) msg now))) pfx n =
        .ok (v + 1)) := by
  constructor
  · intro h
    have hAfter : AWSSecretsProvider.getVersion
        (setAssoc store (pfx ++ n) (.json (encodePayload c (v + 1) msg now))) pfx n =
        .ok (some (.jnum (v + 1))) := by
      rw [AWSSecretsProvider.getVersion,
        aws_getVersionRaw_encode _ pfx n c (v + 1) msg now (getAssoc_setAssoc_self ..)]
    refine ⟨?_, hAfter⟩
    cases hs : getAssoc store (pfx ++ n) with
    | none =>
      have h0 : v = 0 := by
        simp [AWSSecretsProvider.getVersion, AWSSecretsProvider.getVersionRaw,
          AWSSecretsProvider.getPayload, hs, Bind.bind, Except.bind] at h
        omega
      subst h0
      simp [AWSSecretsProvider.push, AWSSecretsProvider.secretExists, hs]
    | some sv =>
      cases sv with
      | notJson =>
        simp [AWSSecretsProvider.getVersion, AWSSecretsProvider.getVersionRaw,
          AWSSecretsProvider.getPayload, hs, Bind.bind, Except.bind] at h
      | json j =>
        cases j with
        | jobj fields =>
          cases hm : lookupField fields "metadata" with
          | none =>
            simp [AWSSecretsProvider.getVersion, AWSSecretsProvider.getVersionRaw,
              AWSSecretsProvider.getPayload, hs, hm, jsGet, Bind.bind, Except.bind] at h
          | some m =>
            cases m with
            | jobj mf =>
              cases hv : lookupField mf "version" with
              | none =>
                simp [AWSSecretsProvider.getVersion, AWSSecretsProvider.getVersionRaw,
                  AWSSecretsProvider.getPayload, hs, hm, hv, jsGet, Bind.bind,
                  Except.bind] at h
              | some jv =>
                cases jv <;>
                  simp [AWSSecretsProvider.getVersion, AWSSecretsProvider.getVersionRaw,
                    AWSSecretsProvider.getPayload, hs, hm, hv, jsGet, Bind.bind,
                    Except.bind] at h
                case jnum v' =>
                  subst h
                  simp [AWSSecretsProvider.push, AWSSecretsProvider.secretExists,
                    AWSSecretsProvider.getPayload, hs, hm, hv, jsGet]
            | jnull =>
              simp [AWSSecretsProvider.getVersion, AWSSecretsProvider.getVersionRaw,
                AWSSecretsProvider.getPayload, hs, hm, jsGet, Bind.bind, Except.bind] at h
            | jbool b =>
              simp [AWSSecretsProvider.getVersion, AWSSecretsProvider.getVersionRaw,
                AWSSecretsProvider.getPayload, hs, hm, jsGet, Bind.bind, Except.bind] at h
            | jnum k =>
              simp [AWSSecretsProvider.getVersion, AWSSecretsProvider.getVersionRaw,
                AWSSecretsProvider.getPayload, hs, hm, jsGet, Bind.bind, Except.bind] at h
            | jstr s =>
              simp [AWSSecretsProvider.getVersion, AWSSecretsProvider.getVersionRaw,
                AWSSecretsProvider.getPayload, hs, hm, jsGet, Bind.bind, Except.bind] at h
            | jarr a =>
              simp [AWSSecretsProvider.getVersion, AWSSecretsProvider.getVersionRaw,
                AWSSecretsProvider.getPayload, hs, hm, jsGet, Bind.bind, Except.bind] at h
        | jnull =>
          simp [AWSSecretsProvider.getVersion, AWSSecretsProvider.getVersionRaw,
            AWSSecretsProvider.getPayload, hs, jsGet, Bind.bind, Except.bind] at h
        | jbool b =>
          simp [AWSSecretsProvider.getVersion, AWSSecretsProvider.getVersionRaw,
            AWSSecretsProvider.getPayload, hs, jsGet, Bind.bind, Except.bind] at h
        | jnum k =>
          simp [AWSSecretsProvider.getVersion, AWSSecretsProvider.getVersionRaw,
            AWSSecretsProvider.getPayload, hs, jsGet, Bind.bind, Except.bind] at h
        | jstr s =>
          simp [AWSSecretsProvider.getVersion, AWSSecretsProvider.getVersionRaw,
            AWSSecretsProvider.getPayload, hs, jsGet, Bind.bind, Except.bind] at h
        | jarr a =>
          simp [AWSSecretsProvider.getVersion, AWSSecretsProvider.getVersionRaw,
            AWSSecretsProvider.getPayload, hs, jsGet, Bind.bind, Except.bind] at h
  · intro h
    cases hfn : AzureKeyVaultProvider.fullName pfx n with
    | error e =>
      exfalso
      rcases az_fullName_error_cases pfx n e hfn with he | he <;> subst he <;>
        simp [AzureKeyVaultProvider.getVersion, AzureKeyVaultProvider.getPayload,
          AzureKeyVaultProvider.getSecretRaw, hfn, Bind.bind, Except.bind] at h
    | ok full =>
      have hfull : full = pfx ++ n := az_fullName_ok pfx n full hfn
      subst hfull
      have hAfter : AzureKeyVaultProvider.getVersion
          (setAssoc store (pfx ++ n) (.json (encodePayload c (v + 1) msg now))) pfx n =
          .ok (v + 1) := by
        simp [AzureKeyVaultProvider.getVersion, AzureKeyVaultProvider.getPayload,
          AzureKeyVaultProvider.getSecretRaw, hfn, getAssoc_setAssoc_self,
          parsePayload_encode, Bind.bind, Except.bind]
      refine ⟨?_, hAfter⟩
      cases hs : getAssoc store (pfx ++ n) with
      | none =>
        have h0 : v = 0 := by
          simp [AzureKeyVaultProvider.getVersion, AzureKeyVaultProvider.getPayload,
            AzureKeyVaultProvider.getSecretRaw, hfn, hs, Bind.bind, Except.bind] at h
          omega
        subst h0
        simp [AzureKeyVaultProvider.push, AzureKeyVaultProvider.secretExists,
          AzureKeyVaultProvider.getSecretRaw, hfn, hs, Bind.bind, Except.bind,
          Pure.pure, Except.pure]
      | some sv =>
        cases hp : AzureKeyVaultProvider.parsePayload sv with
        | error e =>
          exfalso
          cases e <;>
            simp [AzureKeyVaultProvider.getVersion, AzureKeyVaultProvider.getPayload,
              AzureKeyVaultProvider.getSecretRaw, hfn, hs, hp, Bind.bind,
              Except.bind] at h
          exact az_parse_ne_notFound sv hp
        | ok p =>
          have hv : v = p.version := by
            simp [AzureKeyVaultProvider.getVersion, AzureKeyVaultProvider.getPayload,
              AzureKeyVaultProvider.getSecretRaw, hfn, hs, hp, Bind.bind,
              Except.bind] at h
            omega
          subst hv
          simp [AzureKeyVaultProvider.push, AzureKeyVaultProvider.secretExists,
            AzureKeyVaultProvider.getSecretRaw, AzureKeyVaultProvider.getPayload,
            hfn, hs, hp, Bind.bind, Except.bind, Pure.pure, Except.pure]
/-- Witness for C4: the scenario from the spec — first-ever push of `my-app` yields
version 1 for both providers, and `getVersion` then reports 1. -/
theorem push_version_increment_witness :
    AWSSecretsProvider.push [] "envhub-" "my-app" "KEY=value\n" none "t0" =
      .ok (⟨1, "my-app"⟩, setAssoc [] ("envhub-" ++ "my-app")
        (.json (encodePayload "KEY=value\n" 1 none "t0"))) ∧
    AWSSecretsProvider.getVersion
      (setAssoc [] ("envhub-" ++ "my-app")
        (.json (encodePayload "KEY=value\n" 1 none "t0"))) "envhub-" "my-app" =
      .ok (some (.jnum 1)) ∧
    AzureKeyVaultProvider.push [] "envhub-" "my-app" "KEY=value\n" none "t0" =
      .ok (⟨1, "my-app"⟩, setAssoc [] ("envhub-" ++ "my-app")
        (.json (encodePayload "KEY=value\n" 1 none "t0"))) ∧
    AzureKeyVaultProvider.getVersion
      (setAssoc [] ("envhub-" ++ "my-app")
        (.json (encodePayload "KEY=value\n" 1 none "t0"))) "envhub-" "my-app" =
      .ok 1 := by
  have ha := (push_version_increment [] "envhub-" "my-app" "KEY=value\n" none "t0" 0).1 rfl
  have hz := (push_version_increment [] "envhub-" "my-app" "KEY=value\n" none "t0" 0).2 rfl
  norm_num at ha hz
  exact ⟨ha.1, ha.2, hz.1, hz.2⟩

/-! ## C2: malformed / foreign payload handling on reads -/

/-- C2 counterexample: on the AWS provider, a stored payload that is valid JSON
but lacks the `content` string — `{"metadata":{"version":1}}` — is read by `cat`
without any failure: it returns `undefined` (`none`) instead of failing with a
malformed-payload condition. -/
theorem aws_cat_silent_partial :
    AWSSecretsProvider.cat storeNoContent "envhub-" "app" = .ok none := rfl

/-- C2 (amended): the Azure provider rejects every malformed payload on every
read with a distinguishable condition and never returns partial data; the AWS
provider rejects only payloads that are not JSON-decodable — a JSON-decodable
payload lacking a string `content` or numeric `metadata.version` can be returned
partially (see the counterexample). -/
theorem payload_read_validation (store : Store) (pfx n : String) (sv : StoredVal) :
    (∀ e : AzErr, AzureKeyVaultProvider.getSecretRaw store pfx n = .ok sv →
      AzureKeyVaultProvider.parsePayload sv = .error e →
      AzureKeyVaultProvider.cat store pfx n = .error e ∧
      AzureKeyVaultProvider.pull store pfx n = .error e ∧
      AzureKeyVaultProvider.getVersion store pfx n = .error e) ∧
    (∀ s, AzureKeyVaultProvider.cat store pfx n = .ok s →
      ∃ p, AzureKeyVaultProvider.getPayload store pfx n = .ok p ∧ s = p.content) ∧
    (getAssoc store (pfx ++ n) = some .notJson →
      AWSSecretsProvider.cat store pfx n = .error .syntaxError ∧
      AWSSecretsProvider.pull store pfx n = .error .syntaxError ∧
      AWSSecretsProvider.getVersion store pfx n = .error .syntaxError) := by
  refine ⟨?_, ?_, ?_⟩
  · intro e hraw hparse
    have hne : e ≠ .notFound := by
      intro he
      subst he
      exact az_parse_ne_notFound sv hparse
    refine ⟨?_, ?_, ?_⟩
    · simp [AzureKeyVaultProvider.cat, AzureKeyVaultProvider.getPayload, hraw, hparse,
        Bind.bind, Except.bind]
    · simp [AzureKeyVaultProvider.pull, AzureKeyVaultProvider.getPayload, hraw, hparse,
        Bind.bind, Except.bind]
    · cases e <;> simp_all [AzureKeyVaultProvider.getVersion,
        AzureKeyVaultProvider.getPayload, hraw, hparse, Bind.bind, Except.bind]
  · intro s hcat
    cases hp : AzureKeyVaultProvider.getPayload store pfx n with
    | error e =>
      rw [AzureKeyVaultProvider.cat, hp] at hcat
      cases hcat
    | ok p =>
      rw [AzureKeyVaultProvider.cat, hp] at hcat
      exact ⟨p, rfl, (Except.ok.inj hcat).symm⟩
  · intro h
    refine ⟨?_, ?_, ?_⟩
    · simp [AWSSecretsProvider.cat, AWSSecretsProvider.getPayload, h, Bind.bind,
        Except.bind]
    · simp [AWSSecretsProvider.pull, AWSSecretsProvider.getPayload, h, Bind.bind,
        Except.bind]
    · simp [AWSSecretsProvider.getVersion, AWSSecretsProvider.getVersionRaw,
        AWSSecretsProvider.getPayload, h, Bind.bind, Except.bind]

/-- Witness for C2 (amended): a non-JSON payload fails every Azure and AWS read. -/
theorem payload_read_validation_witness :
    AzureKeyVaultProvider.cat [("envhub-a", .notJson)] "envhub-" "a" =
      .error .notInEnvhubFormat ∧
    AzureKeyVaultProvider.pull [("envhub-a", .notJson)] "envhub-" "a" =
      .error .notInEnvhubFormat ∧
    AWSSecretsProvider.cat [("envhub-a", .notJson)] "envhub-" "a" =
      .error .syntaxError ∧
    AWSSecretsProvider.pull [("envhub-a", .notJson)] "envhub-" "a" =
      .error .syntaxError := by
  have hz := (payload_read_validation [("envhub-a", .notJson)] "envhub-" "a"
    .notJson).1 .notInEnvhubFormat rfl rfl
  have ha := (payload_read_validation [("envhub-a", .notJson)] "envhub-" "a"
    .notJson).2.2 rfl
  exact ⟨hz.1, hz.2.1, ha.1, ha.2.1⟩
/-! ## C7: listing never omits items and degrades failed reads -/

theorem append_stripPfx (pfx n : String) (h : strStartsWith n pfx = true) :
    pfx ++ stripPfx pfx n = n := by
  unfold strStartsWith at h
  obtain ⟨t, ht⟩ := List.isPrefixOf_iff_prefix.mp h
  have hdata : (pfx ++ stripPfx pfx n).data = n.data := by
    have happ : ∀ a b : String, (a ++ b).data = a.data ++ b.data := by
      intro a b
      cases a
      cases b
      rfl
    rw [happ]
    unfold stripPfx strStartsWith
    rw [if_pos ( List.isPrefixOf_iff_prefix.mpr ⟨t, ht⟩)]
    show pfx.data ++ (n.data.drop pfx.data.length) = n.data
    rw [← ht, List.drop_left]
  have hext : ∀ a b : String, a.data = b.data → a = b := by
    intro a b hab
    cases a
    cases b
    exact congrArg String.mk hab
  exact hext _ _ hdata

theorem listItem_name (store : Store) (pfx fullNm : String) :
    (AWSSecretsProvider.listItem store pfx fullNm).name = stripPfx pfx fullNm := by
  unfold AWSSecretsProvider.listItem
  repeat' split
  all_goals rfl

theorem length_insertBy (le : α → α → Bool) (x : α) (l : List α) :
    (AzureKeyVaultProvider.insertBy le x l).length = l.length + 1 := by
  induction l with
  | nil => rfl
  | cons y ys ih =>
    by_cases h : le x y
    · simp [AzureKeyVaultProvider.insertBy, h]
    · simp [AzureKeyVaultProvider.insertBy, h, ih]

theorem length_sortBy (le : α → α → Bool) (l : List α) :
    (AzureKeyVaultProvider.sortBy le l).length = l.length := by
  induction l with
  | nil => rfl
  | cons y ys ih => simp [AzureKeyVaultProvider.sortBy, length_insertBy, ih]

theorem mem_insertBy (le : α → α → Bool) (x y : α) (l : List α) :
    y ∈ AzureKeyVaultProvider.insertBy le x l ↔ y = x ∨ y ∈ l := by
  induction l with
  | nil => simp [AzureKeyVaultProvider.insertBy]
  | cons z zs ih =>
    by_cases h : le x z
    · simp [AzureKeyVaultProvider.insertBy, h]
    · simp [AzureKeyVaultProvider.insertBy, h, ih]
      tauto

theorem mem_sortBy (le : α → α → Bool) (y : α) (l : List α) :
    y ∈ AzureKeyVaultProvider.sortBy le l ↔ y ∈ l := by
  induction l with
  | nil => simp [AzureKeyVaultProvider.sortBy]
  | cons z zs ih => simp [AzureKeyVaultProvider.sortBy, mem_insertBy, ih]

/-- C7 counterexample: an AWS payload that is valid JSON with a parseable
`content` string but no `metadata` object — `{"content":"A=1"}` — is a malformed
payload whose best-effort read throws (at `payload.metadata.message`), yet the
listed item carries `secretsCount = 1`, not the `secretsCount = 0` the claim
requires for a failed read. -/
theorem aws_list_malformed_item_count :
    AWSSecretsProvider.list storeContentOnly "envhub-" =
      [⟨"app", 1, none⟩] := rfl

/-- C7 (amended): for both providers every secret under the prefix yields exactly
one list item and a failed payload read never fails the listing; an item whose
read fails before the key count is computed (e.g. a non-JSON payload) appears
with `secretsCount = 0` and `lastMessage = null`.  On Azure any read failure
degrades the item that way; on AWS a malformed payload whose `content` is a
parseable string keeps the parsed key count (see the counterexample). -/
theorem list_never_omits_items (store : Store) (pfx : String) :
    ((AWSSecretsProvider.list store pfx).map (fun it => it.name) =
      (store.filter (fun e => strStartsWith e.1 pfx)).map (fun e => stripPfx pfx e.1)) ∧
    (∀ n, strStartsWith n pfx = true → getAssoc store n = some .notJson →
      AWSSecretsProvider.listItem store pfx n = ⟨stripPfx pfx n, 0, none⟩) ∧
    ((AzureKeyVaultProvider.list store pfx).length =
      (store.filter (fun e => strStartsWith e.1 pfx)).length) ∧
    (∀ n sv, (n, sv) ∈ store → strStartsWith n pfx = true →
      AzureKeyVaultProvider.mapListItem store pfx n ∈
        AzureKeyVaultProvider.list store pfx) ∧
    (∀ n e, AzureKeyVaultProvider.getPayload store pfx (stripPfx pfx n) = .error e →
      AzureKeyVaultProvider.mapListItem store pfx n = ⟨stripPfx pfx n, 0, none⟩) := by
  refine ⟨?_, ?_, ?_, ?_, ?_⟩
  · unfold AWSSecretsProvider.list
    rw [List.map_map]
    exact List.map_congr_left (fun e _ => listItem_name store pfx e.1)
  · intro n hpre hnj
    have hp : AWSSecretsProvider.getPayload store pfx (stripPfx pfx n) =
        .error .syntaxError := by
      unfold AWSSecretsProvider.getPayload
      rw [append_stripPfx pfx n hpre, hnj]
    unfold AWSSecretsProvider.listItem
    rw [hp]
  · unfold AzureKeyVaultProvider.list
    rw [length_sortBy, List.length_map]
  · intro n sv hmem hpre
    unfold AzureKeyVaultProvider.list
    rw [mem_sortBy]
    exact List.mem_map.mpr ⟨(n, sv), List.mem_filter.mpr ⟨hmem, hpre⟩, rfl⟩
  · intro n e he
    unfold AzureKeyVaultProvider.mapListItem
    rw [he]

/-- Witness for C7: a prefixed non-JSON secret is still listed with zero count and
no message (both providers), and the three-secret Azure store with one non-JSON
payload lists all three items. -/
theorem list_never_omits_items_witness :
    AWSSecretsProvider.listItem [("envhub-bad", .notJson)] "envhub-" "envhub-bad" =
      ⟨"bad", 0, none⟩ ∧
    (AzureKeyVaultProvider.list
      [("envhub-b", .json (encodePayload "A=1\nB=2" 3 (some "hi") "t")),
       ("envhub-a", .notJson),
       ("envhub-c", .json (encodePayload "" 1 none "t"))] "envhub-").length = 3 ∧
    AzureKeyVaultProvider.mapListItem
      [("envhub-b", .json (encodePayload "A=1\nB=2" 3 (some "hi") "t")),
       ("envhub-a", .notJson),
       ("envhub-c", .json (encodePayload "" 1 none "t"))] "envhub-" "envhub-a" =
      ⟨"a", 0, none⟩ ∧
    AzureKeyVaultProvider.mapListItem
      [("envhub-b", .json (encodePayload "A=1\nB=2" 3 (some "hi") "t")),
       ("envhub-a", .notJson),
       ("envhub-c", .json (encodePayload "" 1 none "t"))] "envhub-" "envhub-a" ∈
      AzureKeyVaultProvider.list
        [("envhub-b", .json (encodePayload "A=1\nB=2" 3 (some "hi") "t")),
         ("envhub-a", .notJson),
         ("envhub-c", .json (encodePayload "" 1 none "t"))] "envhub-" := by
  refine ⟨(list_never_omits_items [("envhub-bad", .notJson)] "envhub-").2.1
      "envhub-bad" rfl rfl,
    (list_never_omits_items _ "envhub-").2.2.1,
    (list_never_omits_items _ "envhub-").2.2.2.2 "envhub-a" .notInEnvhubFormat rfl,
    (list_never_omits_items _ "envhub-").2.2.2.1 "envhub-a" .notJson
      (List.mem_cons_of_mem _ (List.mem_cons_self _ _)) rfl⟩
/-! ## C5: parse/serialize/parse round trip — trimming lemmas -/

theorem dropWhile_head_not (p : Char → Bool) (l : List Char) (c : Char)
    (h : (l.dropWhile p).head? = some c) : p c = false := by
  induction l with
  | nil => simp [List.dropWhile] at h
  | cons a r ih =>
    by_cases ha : p a
    · rw [List.dropWhile_cons_of_pos ha] at h
      exact ih h
    · rw [List.dropWhile_cons_of_neg ha] at h
      cases h
      simpa using ha

theorem trimLeft_cons_of_not (c : Char) (l : List Char) (h : ¬c.isWhitespace) :
    trimLeftChars (c :: l) = c :: l := by
  simp [trimLeftChars, List.dropWhile_cons_of_neg (by simpa using h)]

theorem trimRight_cons_of_not (c : Char) (l : List Char) (h : ¬c.isWhitespace) :
    trimRightChars (c :: l) = c :: trimRightChars l := by
  unfold trimRightChars
  rw [List.reverse_cons, List.dropWhile_append]
  by_cases he : (l.reverse.dropWhile Char.isWhitespace).isEmpty
  · rw [if_pos he]
    rw [List.isEmpty_iff] at he
    rw [he, List.dropWhile_cons_of_neg (by simpa using h)]
    simp [List.dropWhile]
  · rw [if_neg he]
    simp

theorem trimRight_pre (l : List Char) : trimRightChars l <+: l := by
  have h : List.dropWhile Char.isWhitespace l.reverse <:+ l.reverse :=
    List.dropWhile_suffix _
  have h2 : (List.dropWhile Char.isWhitespace l.reverse).reverse <+: l.reverse.reverse :=
    List.reverse_prefix.mpr h
  rw [List.reverse_reverse] at h2
  exact h2

theorem head?_of_pre (l₁ l₂ : List Char) (h : l₁ <+: l₂) (hne : l₁ ≠ []) :
    l₂.head? = l₁.head? := by
  obtain ⟨t, rfl⟩ := h
  cases l₁ with
  | nil => exact absurd rfl hne
  | cons a r => simp

theorem trimRight_head_not_ws (l : List Char) (c : Char)
    (h : (trimRightChars l).getLast? = some c) : ¬c.isWhitespace := by
  unfold trimRightChars at h
  rw [List.getLast?_reverse] at h
  intro hw
  have := dropWhile_head_not Char.isWhitespace l.reverse c h
  rw [this] at hw
  cases hw

theorem trim_eq_self (l : List Char)
    (h1 : ∀ c, l.head? = some c → ¬c.isWhitespace)
    (h2 : ∀ c, l.getLast? = some c → ¬c.isWhitespace) : trimChars l = l := by
  cases l with
  | nil => rfl
  | cons a r =>
    unfold trimChars
    rw [trimLeft_cons_of_not a r (h1 a rfl)]
    unfold trimRightChars
    cases hlr : (a :: r).reverse with
    | nil => simp at hlr
    | cons b t =>
      have hb : (a :: r).getLast? = some b := by
        rw [← List.head?_reverse, hlr]
        rfl
      rw [List.dropWhile_cons_of_neg (by simpa using h2 b hb), ← hlr,
        List.reverse_reverse]
theorem trimChars_head_not_ws (l : List Char) (c : Char)
    (h : (trimChars l).head? = some c) : ¬c.isWhitespace := by
  have hpre : trimChars l <+: trimLeftChars l := trimRight_pre _
  have hne : trimChars l ≠ [] := by
    intro he
    rw [he] at h
    cases h
  have := head?_of_pre _ _ hpre hne
  rw [h] at this
  intro hw
  have h0 := dropWhile_head_not Char.isWhitespace l c this
  rw [hw] at h0
  cases h0

theorem trimChars_getLast_not_ws (l : List Char) (c : Char)
    (h : (trimChars l).getLast? = some c) : ¬c.isWhitespace :=
  trimRight_head_not_ws (trimLeftChars l) c h

theorem trim_idem (l : List Char) : trimChars (trimChars l) = trimChars l :=
  trim_eq_self _ (trimChars_head_not_ws l) (trimChars_getLast_not_ws l)

theorem trimmed_head_not_ws (l : List Char) (c : Char) (h : trimChars l = l)
    (hc : l.head? = some c) : ¬c.isWhitespace := by
  rw [← h] at hc
  exact trimChars_head_not_ws l c hc

theorem trim_sublist (l : List Char) : List.Sublist (trimChars l) l :=
  ((trimRight_pre (trimLeftChars l)).sublist).trans
    ((List.dropWhile_suffix Char.isWhitespace).sublist)

theorem mem_of_mem_trim (l : List Char) (a : Char) (h : a ∈ trimChars l) : a ∈ l :=
  (trim_sublist l).subset h

theorem mem_of_mem_stripQuotes (v : List Char) (a : Char) (h : a ∈ stripQuotes v) :
    a ∈ v := by
  unfold stripQuotes at h
  split at h
  · exact (List.drop_sublist 1 v).subset ((List.dropLast_sublist _).subset h)
  · exact h

theorem splitNl_ne_nil (l : List Char) : splitNl l ≠ [] := by
  induction l with
  | nil => simp [splitNl]
  | cons c rest ih =>
    by_cases h : c = '\n'
    · simp [splitNl, h]
    · cases hs : splitNl rest with
      | nil => exact absurd hs ih
      | cons x xs => simp [splitNl, h, hs]

theorem mem_splitNl_no_nl (l : List Char) : ∀ x ∈ splitNl l, '\n' ∉ x := by
  induction l with
  | nil =>
    intro x hx
    simp [splitNl] at hx
    simp [hx]
  | cons c rest ih =>
    intro x hx
    by_cases h : c = '\n'
    · rw [splitNl, if_pos h] at hx
      rcases List.mem_cons.mp hx with h0 | h0
      · simp [h0]
      · exact ih x h0
    · rw [splitNl, if_neg h] at hx
      cases hs : splitNl rest with
      | nil => exact absurd hs (splitNl_ne_nil rest)
      | cons y ys =>
        rw [hs] at hx
        rcases List.mem_cons.mp hx with h0 | h0
        · subst h0
          intro hm
          rcases List.mem_cons.mp hm with h1 | h1
          · exact h h1.symm
          · exact ih y (hs ▸ List.mem_cons_self y ys) h1
        · exact ih x (hs ▸ List.mem_cons_of_mem y h0)

theorem splitNl_append (l r : List Char) (h : '\n' ∉ l) :
    splitNl (l ++ '\n' :: r) = l :: splitNl r := by
  induction l with
  | nil => simp [splitNl]
  | cons c l' ih =>
    have hc : ¬c = '\n' := fun he => h (he ▸ List.mem_cons_self c l')
    have h' : '\n' ∉ l' := fun hm => h (List.mem_cons_of_mem c hm)
    rw [List.cons_append, splitNl, if_neg hc, ih h']

theorem idxOf_append_eq (k r : List Char) (h : '=' ∉ k) :
    idxOfChar (k ++ '=' :: r) '=' = some k.length := by
  induction k with
  | nil => simp [idxOfChar]
  | cons c k' ih =>
    have hc : ¬c = '=' := fun he => h (he ▸ List.mem_cons_self c k')
    have h' : '=' ∉ k' := fun hm => h (List.mem_cons_of_mem c hm)
    rw [List.cons_append, idxOfChar, if_neg hc, ih h']
    simp

theorem not_mem_take_idxOf (l : List Char) (ch : Char) (i : Nat)
    (h : idxOfChar l ch = some i) : ch ∉ l.take i := by
  induction l generalizing i with
  | nil => simp
  | cons c rest ih =>
    by_cases hc : c = ch
    · rw [idxOfChar, if_pos hc] at h
      cases h
      simp
    · rw [idxOfChar, if_neg hc] at h
      cases hj : idxOfChar rest ch with
      | none => rw [hj] at h; cases h
      | some j =>
        rw [hj] at h
        have : i = j + 1 := by
          simpa using h.symm
        subst this
        rw [List.take_succ_cons]
        intro hm
        rcases List.mem_cons.mp hm with h0 | h0
        · exact hc h0.symm
        · exact ih j hj h0
theorem getAssoc_none_iff [DecidableEq κ] (m : List (κ × α)) (k : κ) :
    getAssoc m k = none ↔ k ∉ m.map Prod.fst := by
  induction m with
  | nil => simp [getAssoc]
  | cons p rest ih =>
    obtain ⟨k0, w⟩ := p
    by_cases h : k0 = k
    · simp [getAssoc, h]
    · have hne : k ≠ k0 := fun hh => h hh.symm
      simp [getAssoc, h, ih, hne]

theorem mem_setAssoc [DecidableEq κ] (m : List (κ × α)) (k : κ) (v : α)
    (p : κ × α) (hp : p ∈ setAssoc m k v) : p ∈ m ∨ p = (k, v) := by
  induction m with
  | nil =>
    simp [setAssoc] at hp
    exact Or.inr hp
  | cons q rest ih =>
    obtain ⟨k0, w⟩ := q
    by_cases h : k0 = k
    · rw [setAssoc, if_pos h] at hp
      rcases List.mem_cons.mp hp with h0 | h0
      · exact Or.inr h0
      · exact Or.inl (List.mem_cons_of_mem _ h0)
    · rw [setAssoc, if_neg h] at hp
      rcases List.mem_cons.mp hp with h0 | h0
      · exact Or.inl (h0 ▸ List.mem_cons_self _ _)
      · rcases ih h0 with h1 | h1
        · exact Or.inl (List.mem_cons_of_mem _ h1)
        · exact Or.inr h1

theorem keys_setAssoc [DecidableEq κ] (m : List (κ × α)) (k : κ) (v : α) :
    (setAssoc m k v).map Prod.fst =
      if (getAssoc m k).isSome then m.map Prod.fst else m.map Prod.fst ++ [k] := by
  induction m with
  | nil => simp [setAssoc, getAssoc]
  | cons q rest ih =>
    obtain ⟨k0, w⟩ := q
    by_cases h : k0 = k
    · subst h
      simp [setAssoc, getAssoc]
    · rw [setAssoc, if_neg h]
      rw [List.map_cons, ih]
      rw [getAssoc, if_neg h]
      by_cases hs : (getAssoc rest k).isSome
      · simp [hs]
      · simp [hs]

theorem setAssoc_eq_append [DecidableEq κ] (m : List (κ × α)) (k : κ) (v : α)
    (h : getAssoc m k = none) : setAssoc m k v = m ++ [(k, v)] := by
  induction m with
  | nil => rfl
  | cons q rest ih =>
    obtain ⟨k0, w⟩ := q
    rw [getAssoc] at h
    by_cases h0 : k0 = k
    · rw [if_pos h0] at h
      cases h
    · rw [if_neg h0] at h
      rw [setAssoc, if_neg h0, ih h, List.cons_append]

theorem parseOk_setAssoc (m : List (List Char × List Char)) (k v : List Char)
    (hm : parseOk m) (hg : goodEntry (k, v)) : parseOk (setAssoc m k v) := by
  constructor
  · intro p hp
    rcases mem_setAssoc m k v p hp with h | h
    · exact hm.1 p h
    · rw [h]
      exact hg
  · rw [keys_setAssoc]
    by_cases hs : (getAssoc m k).isSome
    · rw [if_pos hs]
      exact hm.2
    · rw [if_neg hs]
      have hk : k ∉ m.map Prod.fst := by
        rw [← getAssoc_none_iff]
        cases h : getAssoc m k
        · rfl
        · rw [h] at hs
          simp at hs
      simp [List.nodup_append, hm.2, hk]

theorem parseOk_parseEnvLine (m : List (List Char × List Char)) (line : List Char)
    (hm : parseOk m) (hl : '\n' ∉ line) : parseOk (parseEnvLine m line) := by
  unfold parseEnvLine
  by_cases h1 : trimChars line = []
  · rw [if_pos h1]
    exact hm
  rw [if_neg h1]
  by_cases h2 : (trimChars line).head? = some '#'
  · rw [if_pos h2]
    exact hm
  rw [if_neg h2]
  split
  next => exact hm
  next i hidx =>
    by_cases hk : trimChars ((trimChars line).take i) = []
    · rw [if_pos hk]
      exact hm
    rw [if_neg hk]
    refine parseOk_setAssoc m _ _ hm ⟨hk, trim_idem _, ?_, ?_, ?_, ?_⟩
    · -- head of the key equals head of the trimmed line, hence not '#'
      have hi0 : i ≠ 0 := by
        intro h0
        subst h0
        exact hk rfl
      obtain ⟨i', rfl⟩ : ∃ i', i = i' + 1 := ⟨i - 1, by omega⟩
      · cases ht : trimChars line with
        | nil => exact absurd ht h1
        | cons a t' =>
          have ha : ¬a.isWhitespace :=
            trimmed_head_not_ws (trimChars line) a (trim_idem line) (by rw [ht]; rfl)
          have hkey : trimChars (a :: List.take i' t') =
              a :: trimRightChars (List.take i' t') := by
            unfold trimChars
            rw [trimLeft_cons_of_not a _ ha, trimRight_cons_of_not a _ ha]
          simp only [List.take_succ_cons, hkey]
          intro hcon
          apply h2
          rw [ht]
          simpa using hcon
    · intro hmem
      exact not_mem_take_idxOf (trimChars line) '=' i hidx (mem_of_mem_trim _ _ hmem)
    · intro hmem
      exact hl (mem_of_mem_trim line _
        ((List.take_sublist i (trimChars line)).subset (mem_of_mem_trim _ _ hmem)))
    · intro hmem
      exact hl (mem_of_mem_trim line _
        ((List.drop_sublist (i + 1) (trimChars line)).subset
          (mem_of_mem_trim _ _ (mem_of_mem_stripQuotes _ _ hmem))))

theorem parseOk_foldl (lines : List (List Char)) (m : List (List Char × List Char))
    (hm : parseOk m) (hl : ∀ l ∈ lines, '\n' ∉ l) :
    parseOk (lines.foldl parseEnvLine m) := by
  induction lines generalizing m with
  | nil => exact hm
  | cons l rest ih =>
    rw [List.foldl_cons]
    exact ih _ (parseOk_parseEnvLine m l hm (hl l (List.mem_cons_self l rest)))
      (fun x hx => hl x (List.mem_cons_of_mem l hx))

theorem parseOk_parseEnvChars (content : List Char) : parseOk (parseEnvChars content) :=
  parseOk_foldl _ [] ⟨fun p hp => absurd hp (List.not_mem_nil p), List.nodup_nil⟩
    (mem_splitNl_no_nl content)
theorem needsQuoting_false_facts (v : List Char) (h : needsQuoting v = false) :
    v ≠ [] ∧ ∀ c ∈ v, ¬c.isWhitespace ∧ c ≠ '#' ∧ c ≠ '"' ∧ c ≠ '\'' ∧ c ≠ '\\' := by
  unfold needsQuoting at h
  rw [Bool.or_eq_false_iff] at h
  obtain ⟨hany, hempty⟩ := h
  constructor
  · intro he
    rw [he] at hempty
    cases hempty
  · intro c hc
    have hx := List.any_eq_false.mp hany c hc
    simp at hx
    obtain ⟨⟨⟨⟨h1, h2⟩, h3⟩, h4⟩, h5⟩ := hx
    exact ⟨by simp [h1], h2, h3, h4, h5⟩

theorem stripQuotes_formatValue (v : List Char) : stripQuotes (formatValue v) = v := by
  unfold formatValue
  by_cases h : needsQuoting v
  · rw [if_pos h]
    have hcond : (('"' :: v ++ ['"']).head? = some '"' ∧
        ('"' :: v ++ ['"']).getLast? = some '"') ∨
        (('"' :: v ++ ['"']).head? = some '\'' ∧
        ('"' :: v ++ ['"']).getLast? = some '\'') := by
      left
      refine ⟨rfl, ?_⟩
      rw [show ('"' :: v ++ ['"']) = ('"' :: v) ++ ['"'] from (List.cons_append ..).symm ▸ rfl]
      rw [List.getLast?_append_of_ne_nil _ (by simp)]
      rfl
    unfold stripQuotes
    rw [if_pos hcond]
    simp [List.dropLast_concat]
  · rw [if_neg h]
    obtain ⟨hne, hall⟩ := needsQuoting_false_facts v (by simpa using h)
    have hcond : ¬((v.head? = some '"' ∧ v.getLast? = some '"') ∨
        (v.head? = some '\'' ∧ v.getLast? = some '\'')) := by
      cases v with
      | nil => exact absurd rfl hne
      | cons c t =>
        intro hcon
        rcases hcon with ⟨hh, _⟩ | ⟨hh, _⟩
        · exact (hall c (List.mem_cons_self c t)).2.2.1 (Option.some.inj hh)
        · exact (hall c (List.mem_cons_self c t)).2.2.2.1 (Option.some.inj hh)
    unfold stripQuotes
    rw [if_neg hcond]

theorem serLine_no_nl (k v : List Char) (hg : goodEntry (k, v)) :
    '\n' ∉ serLine k v := by
  obtain ⟨_, _, _, _, hk_nl, hv_nl⟩ := hg
  unfold serLine
  intro hmem
  rcases List.mem_append.mp hmem with h0 | h0
  · exact hk_nl h0
  · rcases List.mem_cons.mp h0 with h1 | h1
    · cases h1
    · unfold formatValue at h1
      split at h1
      · rcases List.mem_cons.mp h1 with h2 | h2
        · cases h2
        · rcases List.mem_append.mp h2 with h3 | h3
          · exact hv_nl h3
          · simp at h3
      · exact hv_nl h1

theorem formatValue_head_not_ws (v : List Char) (c : Char)
    (h : (formatValue v).head? = some c) : ¬c.isWhitespace := by
  unfold formatValue at h
  split at h
  · cases h
    decide
  · next hq =>
    obtain ⟨hne, hall⟩ := needsQuoting_false_facts v (by simpa using hq)
    cases v with
    | nil => cases h
    | cons a t =>
      have hac : a = c := Option.some.inj h
      subst hac
      exact (hall a (List.mem_cons_self a t)).1

theorem formatValue_getLast_not_ws (v : List Char) (c : Char)
    (h : (formatValue v).getLast? = some c) : ¬c.isWhitespace := by
  unfold formatValue at h
  split at h
  · rw [show ('"' :: v ++ ['"']) = ('"' :: v) ++ ['"'] from (List.cons_append ..).symm ▸ rfl,
      List.getLast?_append_of_ne_nil _ (by simp)] at h
    have : '"' = c := Option.some.inj h
    subst this
    decide
  · next hq =>
    obtain ⟨hne, hall⟩ := needsQuoting_false_facts v (by simpa using hq)
    have hc : c ∈ v := List.mem_of_mem_getLast? (by simp [h])
    exact (hall c hc).1
theorem parse_serLine (acc : List (List Char × List Char)) (k v : List Char)
    (hg : goodEntry (k, v)) : parseEnvLine acc (serLine k v) = setAssoc acc k v := by
  obtain ⟨hk_ne, hk_trim, hk_hash, hk_eq, hk_nl, hv_nl⟩ := hg
  have hhead : ∀ c, (serLine k v).head? = some c → ¬c.isWhitespace := by
    intro c hc
    unfold serLine at hc
    cases k with
    | nil => exact absurd rfl hk_ne
    | cons a t =>
      have hac : a = c := Option.some.inj hc
      subst hac
      exact trimmed_head_not_ws (a :: t) a hk_trim rfl
  have hlast : ∀ c, (serLine k v).getLast? = some c → ¬c.isWhitespace := by
    intro c hc
    unfold serLine at hc
    rw [List.getLast?_append_of_ne_nil _ (by simp)] at hc
    cases hfv : formatValue v with
    | nil =>
      rw [hfv] at hc
      have he : '=' = c := Option.some.inj hc
      subst he
      decide
    | cons b fv' =>
      rw [hfv, show ('=' :: b :: fv') = ['='] ++ (b :: fv') from rfl,
        List.getLast?_append_of_ne_nil _ (by simp)] at hc
      apply formatValue_getLast_not_ws v c
      rw [hfv]
      exact hc
  have htrim : trimChars (serLine k v) = serLine k v := trim_eq_self _ hhead hlast
  have hfvtrim : trimChars (formatValue v) = formatValue v :=
    trim_eq_self _ (formatValue_head_not_ws v) (formatValue_getLast_not_ws v)
  unfold parseEnvLine
  rw [htrim]
  rw [if_neg (by unfold serLine; simp)]
  rw [if_neg ?hash]
  case hash =>
    unfold serLine
    cases k with
    | nil => exact absurd rfl hk_ne
    | cons a t => simpa using hk_hash
  split
  next hnone =>
    exfalso
    unfold serLine at hnone
    rw [idxOf_append_eq k (formatValue v) hk_eq] at hnone
    cases hnone
  next i hidx =>
    unfold serLine at hidx
    rw [idxOf_append_eq k (formatValue v) hk_eq] at hidx
    have hik : i = k.length := (Option.some.inj hidx).symm
    subst hik
    have htake : (serLine k v).take k.length = k := by
      unfold serLine
      exact List.take_left k _
    have hdrop : (serLine k v).drop (k.length + 1) = formatValue v := by
      unfold serLine
      rw [show k ++ '=' :: formatValue v = (k ++ ['=']) ++ formatValue v by simp,
        show k.length + 1 = (k ++ ['=']).length by simp]
      exact List.drop_left _ _
    rw [htake, hk_trim, if_neg hk_ne, hdrop, hfvtrim, stripQuotes_formatValue]

theorem foldl_parse_serLines (M : List (List Char × List Char))
    (acc : List (List Char × List Char)) (hM : ∀ p ∈ M, goodEntry p) :
    (M.map (fun p => serLine p.1 p.2)).foldl parseEnvLine acc =
      M.foldl (fun a p => setAssoc a p.1 p.2) acc := by
  induction M generalizing acc with
  | nil => rfl
  | cons p rest ih =>
    rw [List.map_cons, List.foldl_cons, List.foldl_cons,
      parse_serLine acc p.1 p.2 (hM p (List.mem_cons_self ..))]
    exact ih _ (fun q hq => hM q (List.mem_cons_of_mem p hq))

theorem foldl_setAssoc_eq_append (M acc : List (List Char × List Char))
    (hnd : (M.map Prod.fst).Nodup)
    (hfr : ∀ kk ∈ M.map Prod.fst, getAssoc acc kk = none) :
    M.foldl (fun a p => setAssoc a p.1 p.2) acc = acc ++ M := by
  induction M generalizing acc with
  | nil => simp
  | cons p rest ih =>
    have hnd' : p.1 ∉ rest.map Prod.fst ∧ (rest.map Prod.fst).Nodup := by
      rw [List.map_cons] at hnd
      exact List.nodup_cons.mp hnd
    rw [List.foldl_cons, setAssoc_eq_append acc p.1 p.2
      (hfr p.1 (by rw [List.map_cons]; exact List.mem_cons_self ..))]
    rw [ih (acc ++ [(p.1, p.2)]) hnd'.2 ?fresh]
    · simp
    case fresh =>
      intro kk hkk
      rw [getAssoc_append,
        hfr kk (by rw [List.map_cons]; exact List.mem_cons_of_mem _ hkk)]
      have hne : kk ≠ p.1 := fun he => hnd'.1 (he ▸ hkk)
      simp [getAssoc, Ne.symm hne]

theorem splitNl_joinLines (ls : List (List Char)) (h : ∀ x ∈ ls, '\n' ∉ x)
    (hne : ls ≠ []) : splitNl (joinLines ls ++ ['\n']) = ls ++ [[]] := by
  induction ls with
  | nil => exact absurd rfl hne
  | cons x rest ih =>
    cases rest with
    | nil =>
      show splitNl (joinLines [x] ++ '\n' :: []) = [x] ++ [[]]
      rw [show joinLines [x] = x from rfl,
        splitNl_append x [] (h x (List.mem_cons_self ..))]
      rfl
    | cons y t =>
      rw [show joinLines (x :: y :: t) = x ++ '\n' :: joinLines (y :: t) from rfl]
      rw [show (x ++ '\n' :: joinLines (y :: t)) ++ ['\n'] =
        x ++ '\n' :: (joinLines (y :: t) ++ ['\n']) by simp]
      rw [splitNl_append x _ (h x (List.mem_cons_self ..))]
      rw [ih (fun z hz => h z (List.mem_cons_of_mem x hz)) (by simp)]
      rfl

/-- Core of C5 at the character level. -/
theorem parseEnvChars_roundtrip (d : List Char) :
    parseEnvChars (serializeEnvChars (parseEnvChars d)) = parseEnvChars d := by
  obtain ⟨hgood, hnd⟩ := parseOk_parseEnvChars d
  cases hM : parseEnvChars d with
  | nil => rfl
  | cons p rest =>
    rw [hM] at hgood hnd
    have hnl : ∀ x ∈ (p :: rest).map (fun q => serLine q.1 q.2), '\n' ∉ x := by
      intro x hx
      obtain ⟨q, hq, rfl⟩ := List.mem_map.mp hx
      exact serLine_no_nl q.1 q.2 (hgood q hq)
    unfold serializeEnvChars parseEnvChars
    rw [splitNl_joinLines _ hnl (by simp), List.foldl_append]
    rw [show List.foldl parseEnvLine
        (List.foldl parseEnvLine [] ((p :: rest).map (fun q => serLine q.1 q.2))) [[]] =
      List.foldl parseEnvLine [] ((p :: rest).map (fun q => serLine q.1 q.2)) from rfl]
    rw [foldl_parse_serLines _ [] hgood,
      foldl_setAssoc_eq_append _ [] hnd (fun kk _ => rfl)]
    simp

/-- C5: for all `.env` text, parsing, serializing the resulting mapping, and
parsing again yields exactly the same key-to-value mapping (even the same
insertion-ordered association list) as the first parse. -/
theorem parse_serialize_roundtrip (s : String) :
    parseEnvContent (serializeEnv (parseEnvContent s)) = parseEnvContent s := by
  have hcancel : ∀ L : List (List Char × List Char),
      ((L.map (fun p => (String.mk p.1, String.mk p.2))).map
        (fun p => (p.1.data, p.2.data))) = L := by
    intro L
    induction L with
    | nil => rfl
    | cons p r ih => simp [ih]
  show (parseEnvChars (serializeEnvChars (((parseEnvChars s.data).map
      (fun p => (String.mk p.1, String.mk p.2))).map
      (fun p => (p.1.data, p.2.data))))).map
      (fun p => (String.mk p.1, String.mk p.2)) =
    (parseEnvChars s.data).map (fun p => (String.mk p.1, String.mk p.2))
  rw [hcancel, parseEnvChars_roundtrip]
/-! ## C6: diff classification -/

theorem parseEnvContent_keys_nodup (s : String) :
    ((parseEnvContent s).map Prod.fst).Nodup := by
  unfold parseEnvContent
  rw [List.map_map]
  rw [show (Prod.fst ∘ fun p : List Char × List Char =>
      (String.mk p.1, String.mk p.2)) = String.mk ∘ Prod.fst from rfl, ← List.map_map]
  exact ((parseOk_parseEnvChars s.data).2).map
    (fun a b h => congrArg String.data h)

theorem filterMap_filter_key (L : List (String × String))
    (f : String × String → Option EnvChange)
    (hf : ∀ p c, f p = some c → c.key = p.1)
    (hnd : (L.map Prod.fst).Nodup) (k : String) :
    (L.filterMap f).filter (fun c => c.key == k) =
      match getAssoc L k with
      | none => []
      | some v => (f (k, v)).toList := by
  induction L with
  | nil => rfl
  | cons p rest ih =>
    have hnd' : p.1 ∉ rest.map Prod.fst ∧ (rest.map Prod.fst).Nodup := by
      rw [List.map_cons] at hnd
      exact List.nodup_cons.mp hnd
    have hrest0 : ∀ kk, kk ∉ rest.map Prod.fst →
        (rest.filterMap f).filter (fun c => c.key == kk) = [] := by
      intro kk hkk
      rw [List.filter_eq_nil_iff]
      intro c hc
      obtain ⟨q, hq, hfq⟩ := List.mem_filterMap.mp hc
      rw [hf q c hfq]
      intro hbe
      exact hkk (beq_iff_eq.mp hbe ▸ List.mem_map_of_mem Prod.fst hq)
    rw [List.filterMap_cons]
    by_cases hpk : p.1 = k
    · obtain ⟨k1, v1⟩ := p
      simp only at hpk
      subst hpk
      rw [getAssoc, if_pos rfl]
      cases hf0 : f (k1, v1) with
      | none =>
        show (List.filterMap f rest).filter (fun c => c.key == k1) = (f (k1, v1)).toList
        rw [hf0]
        exact hrest0 k1 hnd'.1
      | some c =>
        show (c :: List.filterMap f rest).filter (fun c => c.key == k1) =
          (f (k1, v1)).toList
        rw [hf0, List.filter_cons,
          if_pos (by rw [hf (k1, v1) c hf0]; exact beq_self_eq_true k1),
          hrest0 k1 hnd'.1]
        rfl
    · obtain ⟨k1, v1⟩ := p
      simp only at hpk
      rw [getAssoc, if_neg hpk]
      cases hf0 : f (k1, v1) with
      | none =>
        show (List.filterMap f rest).filter (fun c => c.key == k) =
          match getAssoc rest k with
          | none => []
          | some v => (f (k, v)).toList
        exact ih hnd'.2
      | some c =>
        show (c :: List.filterMap f rest).filter (fun c => c.key == k) =
          match getAssoc rest k with
          | none => []
          | some v => (f (k, v)).toList
        rw [List.filter_cons, if_neg (by rw [hf (k1, v1) c hf0]; simp [hpk])]
        exact ih hnd'.2

/-- C6: `diff(A,B)` contains exactly one `added` change (with the new value) for
every key of B absent from A, exactly one `removed` change (with the old value)
for every key of A absent from B, exactly one `changed` change (with old and new
value) for every key in both with differing values, and no change for keys equal
in both (or in neither). -/
theorem diff_classification (lc rc k : String) :
    (getAssoc (parseEnvContent lc) k = none →
      ∀ rv, getAssoc (parseEnvContent rc) k = some rv →
      (diffEnvContents lc rc).filter (fun ch => ch.key == k) =
        [⟨k, .added, none, some rv⟩]) ∧
    (∀ lv, getAssoc (parseEnvContent lc) k = some lv →
      getAssoc (parseEnvContent rc) k = none →
      (diffEnvContents lc rc).filter (fun ch => ch.key == k) =
        [⟨k, .removed, some lv, none⟩]) ∧
    (∀ lv rv, getAssoc (parseEnvContent lc) k = some lv →
      getAssoc (parseEnvContent rc) k = some rv → lv ≠ rv →
      (diffEnvContents lc rc).filter (fun ch => ch.key == k) =
        [⟨k, .changed, some lv, some rv⟩]) ∧
    (∀ v, getAssoc (parseEnvContent lc) k = some v →
      getAssoc (parseEnvContent rc) k = some v →
      (diffEnvContents lc rc).filter (fun ch => ch.key == k) = []) ∧
    (getAssoc (parseEnvContent lc) k = none →
      getAssoc (parseEnvContent rc) k = none →
      (diffEnvContents lc rc).filter (fun ch => ch.key == k) = []) := by
  have hfB : ∀ (p : String × String) (c : EnvChange),
      (match getAssoc (parseEnvContent lc) p.1 with
        | none => some (⟨p.1, .added, none, some p.2⟩ : EnvChange)
        | some lv => if lv = p.2 then none
            else some ⟨p.1, .changed, some lv, some p.2⟩) = some c → c.key = p.1 := by
    intro p c h
    split at h
    · cases h
      rfl
    · split at h
      · cases h
      · cases h
        rfl
  have hfA : ∀ (p : String × String) (c : EnvChange),
      (if (getAssoc (parseEnvContent rc) p.1).isSome then none
        else some (⟨p.1, .removed, some p.2, none⟩ : EnvChange)) = some c →
      c.key = p.1 := by
    intro p c h
    split at h
    · cases h
    · cases h
      rfl
  have hB := filterMap_filter_key (parseEnvContent rc) _ hfB
    (parseEnvContent_keys_nodup rc) k
  have hA := filterMap_filter_key (parseEnvContent lc) _ hfA
    (parseEnvContent_keys_nodup lc) k
  refine ⟨?_, ?_, ?_, ?_, ?_⟩
  · intro h0 rv h1
    unfold diffEnvContents
    rw [List.filter_append, hB, hA, h0, h1]
    simp [h0]
  · intro lv h0 h1
    unfold diffEnvContents
    rw [List.filter_append, hB, hA, h0, h1]
    simp [h1]
  · intro lv rv h0 h1 hne
    unfold diffEnvContents
    rw [List.filter_append, hB, hA, h0, h1]
    simp [h0, h1, hne]
  · intro v h0 h1
    unfold diffEnvContents
    rw [List.filter_append, hB, hA, h0, h1]
    simp [h0, h1]
  · intro h0 h1
    unfold diffEnvContents
    rw [List.filter_append, hB, hA, h0, h1]
    simp

/-- Witness for C6 on concrete contents: local `A=1 B=2 C=3`, remote
`B=2 C=9 D=4` — `D` added once with value 4, `A` removed once with value 1,
`C` changed once from 3 to 9, `B` untouched. -/
theorem diff_classification_witness :
    (diffEnvContents "A=1\nB=2\nC=3" "B=2\nC=9\nD=4").filter
      (fun ch => ch.key == "D") = [⟨"D", .added, none, some "4"⟩] ∧
    (diffEnvContents "A=1\nB=2\nC=3" "B=2\nC=9\nD=4").filter
      (fun ch => ch.key == "A") = [⟨"A", .removed, some "1", none⟩] ∧
    (diffEnvContents "A=1\nB=2\nC=3" "B=2\nC=9\nD=4").filter
      (fun ch => ch.key == "C") = [⟨"C", .changed, some "3", some "9"⟩] ∧
    (diffEnvContents "A=1\nB=2\nC=3" "B=2\nC=9\nD=4").filter
      (fun ch => ch.key == "B") = [] :=
  ⟨(diff_classification "A=1\nB=2\nC=3" "B=2\nC=9\nD=4" "D").1 (by decide) "4"
      (by decide),
   (diff_classification "A=1\nB=2\nC=3" "B=2\nC=9\nD=4" "A").2.1 "1" (by decide)
      (by decide),
   (diff_classification "A=1\nB=2\nC=3" "B=2\nC=9\nD=4" "C").2.2.1 "3" "9"
      (by decide) (by decide) (by decide),
   (diff_classification "A=1\nB=2\nC=3" "B=2\nC=9\nD=4" "B").2.2.2.1 "2"
      (by decide) (by decide)⟩
